import Mathlib

set_option maxHeartbeats 1000000

/-! Shallow embedding of the anonymization core of
`src/telegram_anonymizer_bot.py` (class DocumentAnonymizer and its three
static methods `anonymize_with_regex`, `anonymize_with_ner`,
`full_anonymize`).

Text is modeled as `List Char`.  Python `re.sub` scans the input string left
to right; matching happens on the original text only (replacement text is
emitted into the output and is never rescanned by the same call), so each
`re.sub` call is embedded as one left-to-right scan (`reSub`) driven by a
matcher for the concrete regular expression of that rule.  The matcher for a
position returns the length of the leftmost match starting there, computed
with the greedy backtracking order of the Python engine.

Character-class modeling, for the alphabet the bot processes (ASCII plus
Cyrillic): `\d` is the ASCII digits, `\w` (used by `\b`) is ASCII
alphanumerics, underscore and Cyrillic letters, `\s` is ASCII whitespace.
-/

/-- Python whitespace class `\s`, restricted to ASCII. -/
def isPySpace (c : Char) : Bool :=
  c == ' ' || c == '\t' || c == '\n' || c == '\r' || c == '\x0b' || c == '\x0c'

/-- The class `[\s\-]` used by the phone and insurance-number rules. -/
def isSpaceHyphen (c : Char) : Bool :=
  isPySpace c || c == '-'

/-- Cyrillic letters (the non-ASCII word characters occurring in this bot's
texts and placeholder tokens). -/
def isCyr (c : Char) : Bool :=
  decide (0x400 ≤ c.toNat) && decide (c.toNat ≤ 0x4FF)

/-- Python word-character class `\w`, for the alphabet the bot processes:
ASCII letters and digits, underscore, Cyrillic letters. -/
def isWordChar (c : Char) : Bool :=
  c.isAlphanum || c == '_' || isCyr c

/-- Value of `\b` placed immediately before a pattern that starts with a
digit: the boundary holds exactly when the preceding character (`none` at
the start of the string) is not a word character. -/
def boundaryBeforeDigit : Option Char → Bool
  | none => true
  | some c => !isWordChar c

/-- Value of `\b` placed immediately after a pattern that ends with a digit:
the boundary holds exactly when the following text is empty or starts with a
non-word character. -/
def boundaryAfterDigit (l : List Char) : Bool :=
  match l with
  | [] => true
  | c :: _ => !isWordChar c

/-- The negative lookahead `(?!\d)` after `n` consumed characters: the
character at index `n` (if any) is not a digit. -/
def nextNotDigit (l : List Char) (n : Nat) : Bool :=
  match l[n]? with
  | none => true
  | some c => !c.isDigit

/-- Matcher for the fixed-length numeric patterns
`\b <pfx> \d{...} (?!\d)` (total match length `n`, literal digit prefix
`pfx`): matches at the current position exactly when the previous character
admits `\b`, the next `n` characters exist, start with `pfx` and are all
digits, and the character after them (if any) is not a digit. -/
def matchFixed (pfx : List Char) (n : Nat) (prev : Option Char) (l : List Char) : Option Nat :=
  if boundaryBeforeDigit prev && decide (n ≤ l.length) && List.isPrefixOf pfx l
      && (l.take n).all Char.isDigit && nextNotDigit l n then
    some n
  else
    none

/-- Matcher for the TAX_ID rule `\b\d{10}(?!\d)|\b\d{12}(?!\d)`: the
alternatives are tried left to right at each position. -/
def matchINN (prev : Option Char) (l : List Char) : Option Nat :=
  (matchFixed [] 10 prev l).orElse (fun _ => matchFixed [] 12 prev l)

/-- Consume exactly `k` digits, returning the rest of the input. -/
def matchDigits : Nat → List Char → Option (List Char)
  | 0, l => some l
  | _ + 1, [] => none
  | k + 1, c :: rest => if c.isDigit then matchDigits k rest else none

/-- Greedy optional single character of class `p` (regex `X?`): try the
continuation after consuming first, then without consuming. -/
def optChar (p : Char → Bool) (k : List Char → Option (List Char)) (l : List Char) :
    Option (List Char) :=
  match l with
  | [] => k []
  | c :: rest => if p c then (k rest).orElse (fun _ => k (c :: rest)) else k (c :: rest)

/-- Greedy optional alternation of literal prefixes (regex `(p1|p2|...)?`):
alternatives are tried in order, then the empty choice. -/
def optAlt (cands : List (List Char)) (k : List Char → Option (List Char)) (l : List Char) :
    Option (List Char) :=
  match cands with
  | [] => k l
  | p :: ps =>
    if List.isPrefixOf p l then
      (k (l.drop p.length)).orElse (fun _ => optAlt ps k l)
    else
      optAlt ps k l

/-- Greedy star of class `p` (regex `X*`) with backtracking: longest
continuation first. -/
def starBk (p : Char → Bool) (k : List Char → Option (List Char)) : List Char → Option (List Char)
  | [] => k []
  | c :: rest =>
    if p c then (starBk p k rest).orElse (fun _ => k (c :: rest)) else k (c :: rest)

/-- Greedy plus of class `p` (regex `X+`) with backtracking. -/
def plusBk (p : Char → Bool) (k : List Char → Option (List Char)) (l : List Char) :
    Option (List Char) :=
  match l with
  | [] => none
  | c :: rest => if p c then starBk p k rest else none

/-! The phone rule `(\+7|8|7)?[\s\-]?\(?\d{3}\)?[\s\-]?\d{3}[\s\-]?\d{2}[\s\-]?\d{2}`,
element by element, each stage returning the unconsumed rest. -/

def phE11 (l : List Char) : Option (List Char) := matchDigits 2 l

def phE10 (l : List Char) : Option (List Char) := optChar isSpaceHyphen phE11 l

def phE9 (l : List Char) : Option (List Char) := (matchDigits 2 l).bind phE10

def phE8 (l : List Char) : Option (List Char) := optChar isSpaceHyphen phE9 l

def phE7 (l : List Char) : Option (List Char) := (matchDigits 3 l).bind phE8

def phE6 (l : List Char) : Option (List Char) := optChar isSpaceHyphen phE7 l

def phE5 (l : List Char) : Option (List Char) := optChar (fun c => c == ')') phE6 l

def phE4 (l : List Char) : Option (List Char) := (matchDigits 3 l).bind phE5

def phE3 (l : List Char) : Option (List Char) := optChar (fun c => c == '(') phE4 l

def phE2 (l : List Char) : Option (List Char) := optChar isSpaceHyphen phE3 l

def matchPhoneRest (l : List Char) : Option (List Char) :=
  optAlt [['+', '7'], ['8'], ['7']] phE2 l

/-- Matcher for the PHONE rule (no boundary anchor in the source pattern). -/
def matchPhone (_ : Option Char) (l : List Char) : Option Nat :=
  (matchPhoneRest l).map (fun rest => l.length - rest.length)

/-! The email rule `[a-zA-Z0-9._%+-]+@[a-zA-Z0-9.-]+\.[a-zA-Z]{2,}`. -/

/-- Local-part class `[a-zA-Z0-9._%+-]`. -/
def isLocalChar (c : Char) : Bool :=
  c.isAlphanum || c == '.' || c == '_' || c == '%' || c == '+' || c == '-'

/-- Domain class `[a-zA-Z0-9.-]`. -/
def isDomainChar (c : Char) : Bool :=
  c.isAlphanum || c == '.' || c == '-'

/-- Trailing `[a-zA-Z]{2,}`: at least two ASCII letters, then greedily all
following letters (nothing comes after it in the pattern). -/
def tldTail (l : List Char) : Option (List Char) :=
  match l with
  | a :: b :: rest =>
    if a.isAlpha && b.isAlpha then some (rest.dropWhile Char.isAlpha) else none
  | _ => none

/-- The literal `\.` followed by the top-level-domain letters. -/
def emDot (l : List Char) : Option (List Char) :=
  match l with
  | c :: rest => if c == '.' then tldTail rest else none
  | [] => none

/-- The domain `[a-zA-Z0-9.-]+` followed by `\.` and the TLD. -/
def emDom (l : List Char) : Option (List Char) := plusBk isDomainChar emDot l

/-- The literal `@` followed by the domain part. -/
def emAt (l : List Char) : Option (List Char) :=
  match l with
  | c :: rest => if c == '@' then emDom rest else none
  | [] => none

def matchEmailRest (l : List Char) : Option (List Char) := plusBk isLocalChar emAt l

/-- Matcher for the EMAIL rule (no boundary anchor in the source pattern). -/
def matchEmail (_ : Option Char) (l : List Char) : Option Nat :=
  (matchEmailRest l).map (fun rest => l.length - rest.length)

/-! The passport rule `\b\d{2}\s*\d{2}\s*\d{6}\b`. -/

def ppEnd (l : List Char) : Option (List Char) :=
  (matchDigits 6 l).bind (fun r => if boundaryAfterDigit r then some r else none)

def ppSp2 (l : List Char) : Option (List Char) := starBk isPySpace ppEnd l

def ppD2 (l : List Char) : Option (List Char) := (matchDigits 2 l).bind ppSp2

def ppSp1 (l : List Char) : Option (List Char) := starBk isPySpace ppD2 l

def matchPassportRest (l : List Char) : Option (List Char) := (matchDigits 2 l).bind ppSp1

/-- Matcher for the PASSPORT rule. -/
def matchPassport (prev : Option Char) (l : List Char) : Option Nat :=
  if boundaryBeforeDigit prev then
    (matchPassportRest l).map (fun rest => l.length - rest.length)
  else
    none

/-! The insurance-number rule `\b\d{3}[\-\s]?\d{3}[\-\s]?\d{3}[\s]?\d{2}\b`. -/

def snEnd (l : List Char) : Option (List Char) :=
  (matchDigits 2 l).bind (fun r => if boundaryAfterDigit r then some r else none)

def snSp3 (l : List Char) : Option (List Char) := optChar isPySpace snEnd l

def snD3c (l : List Char) : Option (List Char) := (matchDigits 3 l).bind snSp3

def snSp2 (l : List Char) : Option (List Char) := optChar isSpaceHyphen snD3c l

def snD3b (l : List Char) : Option (List Char) := (matchDigits 3 l).bind snSp2

def snSp1 (l : List Char) : Option (List Char) := optChar isSpaceHyphen snD3b l

def matchSnilsRest (l : List Char) : Option (List Char) := (matchDigits 3 l).bind snSp1

/-- Matcher for the SNILS (insurance-number) rule. -/
def matchSnils (prev : Option Char) (l : List Char) : Option Nat :=
  if boundaryBeforeDigit prev then
    (matchSnilsRest l).map (fun rest => l.length - rest.length)
  else
    none

/-- One `re.sub(pattern, repl, text)` pass, fueled by the length of the
text: at each position try the matcher (which receives the previous input
character, needed for `\b`); on a match of length `n` emit the replacement
and resume scanning after the matched segment of the input; otherwise emit
the current character.  The replacement is never rescanned, exactly as in
Python. -/
def reSubF (m : Option Char → List Char → Option Nat) (repl : List Char) :
    Nat → Option Char → List Char → List Char
  | 0, _, l => l
  | _ + 1, _, [] => []
  | f + 1, prev, c :: rest =>
    match m prev (c :: rest) with
    | some n => repl ++ reSubF m repl f (some (((c :: rest).take n).getLastD c)) (List.drop (n - 1) rest)
    | none => c :: reSubF m repl f (some c) rest

def reSub (m : Option Char → List Char → Option Nat) (repl : List Char) (l : List Char) :
    List Char :=
  reSubF m repl l.length none l

/-! The eleven `re.sub` calls of `anonymize_with_regex`, in source order. -/

def sub_inn (l : List Char) : List Char := reSub matchINN "[ИНН]".data l

def sub_ogrn (l : List Char) : List Char := reSub (matchFixed [] 13) "[ОГРН]".data l

def sub_ogrnip (l : List Char) : List Char := reSub (matchFixed [] 15) "[ОГРНИП]".data l

def sub_kpp (l : List Char) : List Char := reSub (matchFixed [] 9) "[КПП]".data l

def sub_bik (l : List Char) : List Char := reSub (matchFixed ['0', '4'] 9) "[БИК]".data l

def sub_rs (l : List Char) : List Char := reSub (matchFixed [] 20) "[Р/С]".data l

def sub_ks (l : List Char) : List Char := reSub (matchFixed ['3', '0', '1'] 20) "[К/С]".data l

def sub_phone (l : List Char) : List Char := reSub matchPhone "[ТЕЛЕФОН]".data l

def sub_email (l : List Char) : List Char := reSub matchEmail "[EMAIL]".data l

def sub_passport (l : List Char) : List Char := reSub matchPassport "[ПАСПОРТ]".data l

def sub_snils (l : List Char) : List Char := reSub matchSnils "[СНИЛС]".data l

/-- `DocumentAnonymizer.anonymize_with_regex`: the eleven substitutions
applied in source order, each to the output of the previous one. -/
def anonymize_with_regex (l : List Char) : List Char :=
  sub_snils (sub_passport (sub_email (sub_phone
    (sub_ks (sub_rs (sub_bik (sub_kpp (sub_ogrnip (sub_ogrn (sub_inn l))))))))))

/-! ### The entity (NER) stage, `anonymize_with_ner`

The natasha pipeline (segmenter, morphology tagger, NER tagger) is the
external entity-recognition capability of spec section 4.2; it is embedded
as a function parameter `recognize` producing either the list of spans of
the document (each with `start`, `stop`, `type`) or an error, which models
the `except` branch of the source (any exception raised by the pipeline
calls).  Python strings are immutable; `text_list = list(text)` is a
private mutable copy, and list slice assignment
`text_list[start:stop] = replacement` clamps both indices to the list
length and, when the clamped stop is below the clamped start, inserts at
the start index without deleting.  `pySpliceAssign` reproduces exactly
that. -/

/-- A natasha entity span: `span.start`, `span.stop`, `span.type`. -/
structure NerSpan where
  start : Nat
  stop : Nat
  type : String
deriving DecidableEq

/-- The replacement chosen by the `if span.type == 'PER' / 'ORG' / 'LOC'`
chain; `none` models the `continue` branch for any other type. -/
def replacementFor (t : String) : Option (List Char) :=
  if t = "PER" then some "[ФИО]".data
  else if t = "ORG" then some "[ОРГАНИЗАЦИЯ]".data
  else if t = "LOC" then some "[АДРЕС]".data
  else none

/-- Python list slice assignment `l[a:b] = x` for natural indices. -/
def pySpliceAssign (l : List Char) (a b : Nat) (x : List Char) : List Char :=
  let a' := min a l.length
  let b' := min b l.length
  l.take a' ++ x ++ l.drop (max a' b')

/-- One iteration of the replacement loop of `anonymize_with_ner`. -/
def applySpan (l : List Char) (s : NerSpan) : List Char :=
  match replacementFor s.type with
  | some r => pySpliceAssign l s.start s.stop r
  | none => l

/-- The sort key of `sorted(doc.spans, key=lambda x: x.start, reverse=True)`:
descending by `start`. -/
def spanDescRel (x y : NerSpan) : Prop := y.start ≤ x.start

instance : DecidableRel spanDescRel := fun x y => Nat.decLe y.start x.start

instance : IsTotal NerSpan spanDescRel :=
  ⟨fun a b => Nat.le_total b.start a.start⟩

instance : IsTrans NerSpan spanDescRel :=
  ⟨fun _ _ _ hab hbc => Nat.le_trans hbc hab⟩

/-- `sorted(..., key=lambda x: x.start, reverse=True)`: a stable sort,
descending by start offset. -/
def sortSpansDesc (spans : List NerSpan) : List NerSpan :=
  List.insertionSort spanDescRel spans

/-- The whole replacement loop of `anonymize_with_ner`: splice each span of
the descending-sorted list into the character list in turn. -/
def applyNerSpans (text : List Char) (spans : List NerSpan) : List Char :=
  (sortSpansDesc spans).foldl applySpan text

/-- `DocumentAnonymizer.anonymize_with_ner`: on recognizer success splice
all spans; on recognizer failure return the input text unchanged (the
`except` branch logs and returns `text`). -/
def anonymize_with_ner (recognize : List Char → Except String (List NerSpan))
    (text : List Char) : List Char :=
  match recognize text with
  | .ok spans => applyNerSpans text spans
  | .error _ => text

/-- `DocumentAnonymizer.full_anonymize`: regex stage first, NER stage
second. -/
def full_anonymize (recognize : List Char → Except String (List NerSpan))
    (text : List Char) : List Char :=
  anonymize_with_ner recognize (anonymize_with_regex text)

/-- Spec-side rendering of a batch of entity replacements, following the
words of the spec: walking the ascending (leftmost-first) list of spans,
every span's original `[start, stop)` substring is replaced by exactly its
placeholder and all text outside the spans is preserved.  `pos` is the
absolute offset up to which the original text has been consumed. -/
def renderSpans (t : List Char) : Nat → List NerSpan → List Char
  | pos, [] => t.drop pos
  | pos, s :: rest =>
    (t.take s.start).drop pos ++ (replacementFor s.type).getD [] ++ renderSpans t s.stop rest

/-- Well-formedness of an ascending span list over a text of length `len`,
starting at offset `pos`: spans are in bounds, ordered, and mutually
disjoint. -/
def ChainOK (len : Nat) : Nat → List NerSpan → Prop
  | _, [] => True
  | pos, s :: rest => pos ≤ s.start ∧ s.start ≤ s.stop ∧ s.stop ≤ len ∧ ChainOK len s.stop rest

/-- The replacement loop of `anonymize_with_ner` with an injected fault:
`faultAt = some j` models an exception raised inside the `try` block right
before the loop iteration numbered `j` (counting processed spans), i.e.
after `j` spans have already been spliced into the private character
list. -/
def spliceLoopExc (faultAt : Option Nat) : Nat → List Char → List NerSpan →
    Except String (List Char)
  | _, acc, [] => .ok acc
  | j, acc, s :: rest =>
    if faultAt = some j then .error "NER"
    else spliceLoopExc faultAt (j + 1) (applySpan acc s) rest

/-- `anonymize_with_ner` with the fault-injecting loop: an exception raised
anywhere inside the `try` block lands in the `except` branch, which returns
the original (immutable) `text`, discarding the partially spliced private
copy. -/
def anonymize_with_ner_exc (recognize : List Char → Except String (List NerSpan))
    (faultAt : Option Nat) (text : List Char) : List Char :=
  match recognize text with
  | .error _ => text
  | .ok spans =>
    match spliceLoopExc faultAt 0 text (sortSpansDesc spans) with
    | .ok res => res
    | .error _ => text

/-- Characters that can never restart any rule of the structured stage: the
numeric, phone, passport and insurance rules all have to consume a digit,
and the email rule an at-sign. -/
def cleanChars (l : List Char) : Bool :=
  l.all (fun c => !c.isDigit && !(c == '@'))

/-! ### Basic facts about the scanner and the matchers -/

theorem reSubF_nil (m : Option Char → List Char → Option Nat) (repl : List Char)
    (f : Nat) (prev : Option Char) : reSubF m repl f prev [] = [] := by
  cases f <;> rfl

theorem reSubF_cons_none {m : Option Char → List Char → Option Nat} {repl : List Char}
    {prev : Option Char} {c : Char} {rest : List Char} (f : Nat)
    (h : m prev (c :: rest) = none) :
    reSubF m repl (f + 1) prev (c :: rest) = c :: reSubF m repl f (some c) rest := by
  simp [reSubF, h]

theorem reSubF_cons_some {m : Option Char → List Char → Option Nat} {repl : List Char}
    {prev : Option Char} {c : Char} {rest : List Char} {n : Nat} (f : Nat)
    (h : m prev (c :: rest) = some n) :
    reSubF m repl (f + 1) prev (c :: rest) =
      repl ++ reSubF m repl f (some (((c :: rest).take n).getLastD c))
        (List.drop (n - 1) rest) := by
  simp [reSubF, h]

theorem isWordChar_of_isDigit {c : Char} (h : c.isDigit = true) : isWordChar c = true := by
  simp [isWordChar, Char.isAlphanum, h]

theorem boundaryBeforeDigit_digit {c : Char} (h : c.isDigit = true) :
    boundaryBeforeDigit (some c) = false := by
  simp [boundaryBeforeDigit, isWordChar_of_isDigit h]

theorem not_isDigit_of_not_word {c : Char} (h : isWordChar c = false) : c.isDigit = false := by
  cases hd : c.isDigit
  · rfl
  · rw [isWordChar_of_isDigit hd] at h; exact absurd h (by simp)

theorem matchFixed_none_of_head {pfx : List Char} {n : Nat} {prev : Option Char} {c : Char}
    {l : List Char} (hn : 0 < n) (hc : c.isDigit = false) :
    matchFixed pfx n prev (c :: l) = none := by
  have htake : ((c :: l).take n).all Char.isDigit = false := by
    cases n with
    | zero => omega
    | succ m => simp [List.take_succ_cons, hc]
  simp [matchFixed, htake]

theorem matchFixed_none_of_short {pfx : List Char} {n : Nat} {prev : Option Char}
    {l : List Char} (h : l.length < n) : matchFixed pfx n prev l = none := by
  have : ¬ (n ≤ l.length) := by omega
  simp [matchFixed, this]

theorem matchFixed_none_of_lookahead {pfx : List Char} {n : Nat} {prev : Option Char}
    {l : List Char} {c : Char} (h : l[n]? = some c) (hc : c.isDigit = true) :
    matchFixed pfx n prev l = none := by
  simp only [matchFixed, nextNotDigit, h, hc]
  simp

theorem matchFixed_none_of_boundary {pfx : List Char} {n : Nat} {prev : Option Char}
    {l : List Char} (h : boundaryBeforeDigit prev = false) :
    matchFixed pfx n prev l = none := by
  simp [matchFixed, h]

theorem matchFixed_some_intro {pfx : List Char} {n : Nat} {prev : Option Char} {l : List Char}
    (hb : boundaryBeforeDigit prev = true) (hlen : n ≤ l.length)
    (hpfx : List.isPrefixOf pfx l = true) (hall : (l.take n).all Char.isDigit = true)
    (hnext : nextNotDigit l n = true) : matchFixed pfx n prev l = some n := by
  simp [matchFixed, hb, hlen, hpfx, hall, hnext]

theorem reSubF_id_of_pred {m : Option Char → List Char → Option Nat} {repl : List Char}
    (P : List Char → Prop) (hm : ∀ prev l, P l → m prev l = none)
    (htl : ∀ c l, P (c :: l) → P l) :
    ∀ f prev l, P l → reSubF m repl f prev l = l := by
  intro f
  induction f with
  | zero => intro prev l _; rfl
  | succ f ih =>
    intro prev l hP
    cases l with
    | nil => rfl
    | cons c rest =>
      rw [reSubF_cons_none f (hm prev _ hP), ih (some c) rest (htl c rest hP)]

theorem reSubF_id_blocked {m : Option Char → List Char → Option Nat} {repl : List Char}
    (hm : ∀ prev l, boundaryBeforeDigit prev = false → m prev l = none) :
    ∀ f prev l, boundaryBeforeDigit prev = false → l.all Char.isDigit = true →
      reSubF m repl f prev l = l := by
  intro f
  induction f with
  | zero => intro prev l _ _; rfl
  | succ f ih =>
    intro prev l hprev hl
    cases l with
    | nil => rfl
    | cons c rest =>
      have hl' : c.isDigit = true ∧ rest.all Char.isDigit = true := by
        simpa only [List.all_cons, Bool.and_eq_true] using hl
      rw [reSubF_cons_none f (hm prev _ hprev),
        ih (some c) rest (boundaryBeforeDigit_digit hl'.1) hl'.2]

theorem reSub_id_run {m : Option Char → List Char → Option Nat} {repl : List Char}
    {l : List Char} (hm : ∀ prev l, boundaryBeforeDigit prev = false → m prev l = none)
    (h0 : m none l = none) (hl : l.all Char.isDigit = true) : reSub m repl l = l := by
  cases l with
  | nil => rfl
  | cons c rest =>
    have hl' : c.isDigit = true ∧ rest.all Char.isDigit = true := by
      simpa only [List.all_cons, Bool.and_eq_true] using hl
    show reSubF m repl (c :: rest).length none (c :: rest) = c :: rest
    rw [List.length_cons, reSubF_cons_none rest.length h0,
      reSubF_id_blocked hm rest.length (some c) rest (boundaryBeforeDigit_digit hl'.1) hl'.2]

theorem reSub_id_wordhead {m : Option Char → List Char → Option Nat} {repl : List Char}
    {c : Char} {d : List Char}
    (hm : ∀ prev l, boundaryBeforeDigit prev = false → m prev l = none)
    (h0 : m none (c :: d) = none) (hc : isWordChar c = true)
    (hd : d.all Char.isDigit = true) : reSub m repl (c :: d) = c :: d := by
  show reSubF m repl (c :: d).length none (c :: d) = c :: d
  rw [List.length_cons, reSubF_cons_none d.length h0,
    reSubF_id_blocked hm d.length (some c) d (by simp [boundaryBeforeDigit, hc]) hd]

theorem reSub_delim {m : Option Char → List Char → Option Nat} {repl : List Char}
    {a b : Char} {run : List Char} {n : Nat}
    (hn : 0 < n) (hlen : run.length = n)
    (h0 : m none (a :: (run ++ [b])) = none)
    (h1 : m (some a) (run ++ [b]) = some n)
    (h2 : ∀ prev, m prev [b] = none) :
    reSub m repl (a :: (run ++ [b])) = a :: (repl ++ [b]) := by
  obtain ⟨r, rt, rfl⟩ : ∃ r rt, run = r :: rt := by
    cases run with
    | nil => simp at hlen; omega
    | cons r rt => exact ⟨r, rt, rfl⟩
  have hrt : rt.length = n - 1 := by simp at hlen; omega
  simp only [List.cons_append] at h0 h1 ⊢
  have hdrop : List.drop (n - 1) (rt ++ [b]) = [b] := by
    rw [show n - 1 = rt.length from hrt.symm]
    exact List.drop_left rt [b]
  show reSubF m repl (a :: r :: (rt ++ [b])).length none (a :: r :: (rt ++ [b])) = _
  have hL : (a :: r :: (rt ++ [b])).length = (rt.length + 2) + 1 := by
    simp [List.length_cons, List.length_append]
  rw [hL, reSubF_cons_none (rt.length + 2) h0,
    reSubF_cons_some (rt.length + 1) h1, hdrop,
    reSubF_cons_none rt.length (h2 _), reSubF_nil]

theorem reSub_exact {m : Option Char → List Char → Option Nat} {repl : List Char}
    {run : List Char} {n : Nat} (hn : 0 < n) (hlen : run.length = n)
    (h1 : m none run = some n) : reSub m repl run = repl := by
  obtain ⟨r, rt, rfl⟩ : ∃ r rt, run = r :: rt := by
    cases run with
    | nil => simp at hlen; omega
    | cons r rt => exact ⟨r, rt, rfl⟩
  have hrt : rt.length = n - 1 := by simp at hlen; omega
  have hdrop : List.drop (n - 1) rt = [] := by
    rw [show n - 1 = rt.length from hrt.symm]
    exact List.drop_length rt
  show reSubF m repl (r :: rt).length none (r :: rt) = _
  rw [List.length_cons, reSubF_cons_some rt.length h1, hdrop, reSubF_nil, List.append_nil]

theorem isPrefixOf_append {p l : List Char} (h : List.isPrefixOf p l = true)
    (l' : List Char) : List.isPrefixOf p (l ++ l') = true := by
  induction p generalizing l with
  | nil => simp only [List.isPrefixOf]
  | cons a as ih =>
    cases l with
    | nil => simp only [List.isPrefixOf] at h; exact absurd h (by simp)
    | cons b bs =>
      simp only [List.cons_append, List.isPrefixOf, Bool.and_eq_true] at h ⊢
      exact ⟨h.1, ih h.2⟩

/-! ### Strings without digits and at-signs are fixed points of every rule -/

theorem cleanChars_cons {c : Char} {l : List Char} (h : cleanChars (c :: l) = true) :
    c.isDigit = false ∧ (c == '@') = false ∧ cleanChars l = true := by
  simp only [cleanChars, List.all_cons, Bool.and_eq_true, Bool.not_eq_true'] at h
  exact ⟨h.1.1, h.1.2, h.2⟩

theorem cleanChars_drop {l : List Char} (h : cleanChars l = true) (j : Nat) :
    cleanChars (l.drop j) = true := by
  simp only [cleanChars, List.all_eq_true] at h ⊢
  intro x hx
  exact h x (List.drop_subset j l hx)

theorem matchDigits_none_clean (k : Nat) {l : List Char} (hk : 0 < k)
    (h : cleanChars l = true) : matchDigits k l = none := by
  cases k with
  | zero => omega
  | succ k =>
    cases l with
    | nil => rfl
    | cons c rest => simp [matchDigits, (cleanChars_cons h).1]

theorem optChar_none_clean {p : Char → Bool} {k : List Char → Option (List Char)}
    (hk : ∀ l, cleanChars l = true → k l = none) {l : List Char}
    (h : cleanChars l = true) : optChar p k l = none := by
  cases l with
  | nil => simp only [optChar]; exact hk [] rfl
  | cons c rest =>
    have h1 := hk rest (cleanChars_cons h).2.2
    have h2 := hk _ h
    cases hpc : p c <;> simp [optChar, hpc, h1, h2, Option.orElse]

theorem starBk_none_clean {p : Char → Bool} {k : List Char → Option (List Char)}
    (hk : ∀ l, cleanChars l = true → k l = none) :
    ∀ l, cleanChars l = true → starBk p k l = none := by
  intro l
  induction l with
  | nil => intro h; simp only [starBk]; exact hk [] rfl
  | cons c rest ih =>
    intro h
    have h1 := ih (cleanChars_cons h).2.2
    have h2 := hk _ h
    cases hpc : p c <;> simp [starBk, hpc, h1, h2, Option.orElse]

theorem plusBk_none_clean {p : Char → Bool} {k : List Char → Option (List Char)}
    (hk : ∀ l, cleanChars l = true → k l = none) {l : List Char}
    (h : cleanChars l = true) : plusBk p k l = none := by
  cases l with
  | nil => rfl
  | cons c rest =>
    cases hpc : p c <;>
      simp [plusBk, hpc, starBk_none_clean hk rest (cleanChars_cons h).2.2]

theorem optAlt_none_clean {k : List Char → Option (List Char)}
    (hk : ∀ l, cleanChars l = true → k l = none) :
    ∀ cands {l : List Char}, cleanChars l = true → optAlt cands k l = none := by
  intro cands
  induction cands with
  | nil => intro l h; simp only [optAlt]; exact hk l h
  | cons p ps ih =>
    intro l h
    cases hp : List.isPrefixOf p l <;>
      simp [optAlt, hp, hk _ (cleanChars_drop h _), ih h, Option.orElse]

theorem phE11_none_clean {l : List Char} (h : cleanChars l = true) : phE11 l = none :=
  matchDigits_none_clean 2 (by omega) h

theorem phE10_none_clean {l : List Char} (h : cleanChars l = true) : phE10 l = none :=
  optChar_none_clean (fun _ h => phE11_none_clean h) h

theorem phE9_none_clean {l : List Char} (h : cleanChars l = true) : phE9 l = none := by
  simp [phE9, matchDigits_none_clean 2 (by omega) h]

theorem phE8_none_clean {l : List Char} (h : cleanChars l = true) : phE8 l = none :=
  optChar_none_clean (fun _ h => phE9_none_clean h) h

theorem phE7_none_clean {l : List Char} (h : cleanChars l = true) : phE7 l = none := by
  simp [phE7, matchDigits_none_clean 3 (by omega) h]

theorem phE6_none_clean {l : List Char} (h : cleanChars l = true) : phE6 l = none :=
  optChar_none_clean (fun _ h => phE7_none_clean h) h

theorem phE5_none_clean {l : List Char} (h : cleanChars l = true) : phE5 l = none :=
  optChar_none_clean (fun _ h => phE6_none_clean h) h

theorem phE4_none_clean {l : List Char} (h : cleanChars l = true) : phE4 l = none := by
  simp [phE4, matchDigits_none_clean 3 (by omega) h]

theorem phE3_none_clean {l : List Char} (h : cleanChars l = true) : phE3 l = none :=
  optChar_none_clean (fun _ h => phE4_none_clean h) h

theorem phE2_none_clean {l : List Char} (h : cleanChars l = true) : phE2 l = none :=
  optChar_none_clean (fun _ h => phE3_none_clean h) h

theorem matchPhone_none_clean (prev : Option Char) {l : List Char}
    (h : cleanChars l = true) : matchPhone prev l = none := by
  have : matchPhoneRest l = none :=
    optAlt_none_clean (fun _ h => phE2_none_clean h) _ h
  simp [matchPhone, this]

theorem emAt_none_clean {l : List Char} (h : cleanChars l = true) : emAt l = none := by
  cases l with
  | nil => rfl
  | cons c rest => simp [emAt, (cleanChars_cons h).2.1]

theorem matchEmail_none_clean (prev : Option Char) {l : List Char}
    (h : cleanChars l = true) : matchEmail prev l = none := by
  have : matchEmailRest l = none :=
    plusBk_none_clean (fun _ h => emAt_none_clean h) h
  simp [matchEmail, this]

theorem matchPassport_none_clean (prev : Option Char) {l : List Char}
    (h : cleanChars l = true) : matchPassport prev l = none := by
  have : matchPassportRest l = none := by
    simp [matchPassportRest, matchDigits_none_clean 2 (by omega) h]
  cases hb : boundaryBeforeDigit prev <;> simp [matchPassport, hb, this]

theorem matchSnils_none_clean (prev : Option Char) {l : List Char}
    (h : cleanChars l = true) : matchSnils prev l = none := by
  have : matchSnilsRest l = none := by
    simp [matchSnilsRest, matchDigits_none_clean 3 (by omega) h]
  cases hb : boundaryBeforeDigit prev <;> simp [matchSnils, hb, this]

theorem matchFixed_none_clean (pfx : List Char) (n : Nat) (prev : Option Char)
    {l : List Char} (hn : 0 < n) (h : cleanChars l = true) :
    matchFixed pfx n prev l = none := by
  cases l with
  | nil => exact matchFixed_none_of_short (by simpa using hn)
  | cons c rest => exact matchFixed_none_of_head hn (cleanChars_cons h).1

theorem matchINN_none_clean (prev : Option Char) {l : List Char}
    (h : cleanChars l = true) : matchINN prev l = none := by
  have h10 := matchFixed_none_clean [] 10 prev (by omega) h
  have h12 := matchFixed_none_clean [] 12 prev (by omega) h
  simp [matchINN, h10, h12, Option.orElse]

theorem reSub_id_clean {m : Option Char → List Char → Option Nat} {repl : List Char}
    (hm : ∀ prev l, cleanChars l = true → m prev l = none) {l : List Char}
    (h : cleanChars l = true) : reSub m repl l = l :=
  reSubF_id_of_pred (fun l => cleanChars l = true) hm
    (fun _ _ hc => (cleanChars_cons hc).2.2) l.length none l h

theorem sub_inn_id_clean {l : List Char} (h : cleanChars l = true) : sub_inn l = l :=
  reSub_id_clean (fun prev _ hl => matchINN_none_clean prev hl) h

theorem sub_ogrn_id_clean {l : List Char} (h : cleanChars l = true) : sub_ogrn l = l :=
  reSub_id_clean (fun prev _ hl => matchFixed_none_clean [] 13 prev (by omega) hl) h

theorem sub_ogrnip_id_clean {l : List Char} (h : cleanChars l = true) : sub_ogrnip l = l :=
  reSub_id_clean (fun prev _ hl => matchFixed_none_clean [] 15 prev (by omega) hl) h

theorem sub_kpp_id_clean {l : List Char} (h : cleanChars l = true) : sub_kpp l = l :=
  reSub_id_clean (fun prev _ hl => matchFixed_none_clean [] 9 prev (by omega) hl) h

theorem sub_bik_id_clean {l : List Char} (h : cleanChars l = true) : sub_bik l = l :=
  reSub_id_clean (fun prev _ hl => matchFixed_none_clean ['0', '4'] 9 prev (by omega) hl) h

theorem sub_rs_id_clean {l : List Char} (h : cleanChars l = true) : sub_rs l = l :=
  reSub_id_clean (fun prev _ hl => matchFixed_none_clean [] 20 prev (by omega) hl) h

theorem sub_ks_id_clean {l : List Char} (h : cleanChars l = true) : sub_ks l = l :=
  reSub_id_clean (fun prev _ hl => matchFixed_none_clean ['3', '0', '1'] 20 prev (by omega) hl) h

theorem sub_phone_id_clean {l : List Char} (h : cleanChars l = true) : sub_phone l = l :=
  reSub_id_clean (fun prev _ hl => matchPhone_none_clean prev hl) h

theorem sub_email_id_clean {l : List Char} (h : cleanChars l = true) : sub_email l = l :=
  reSub_id_clean (fun prev _ hl => matchEmail_none_clean prev hl) h

theorem sub_passport_id_clean {l : List Char} (h : cleanChars l = true) : sub_passport l = l :=
  reSub_id_clean (fun prev _ hl => matchPassport_none_clean prev hl) h

theorem sub_snils_id_clean {l : List Char} (h : cleanChars l = true) : sub_snils l = l :=
  reSub_id_clean (fun prev _ hl => matchSnils_none_clean prev hl) h

theorem anonymize_with_regex_id_clean {l : List Char} (h : cleanChars l = true) :
    anonymize_with_regex l = l := by
  unfold anonymize_with_regex
  rw [sub_inn_id_clean h, sub_ogrn_id_clean h, sub_ogrnip_id_clean h, sub_kpp_id_clean h,
    sub_bik_id_clean h, sub_rs_id_clean h, sub_ks_id_clean h, sub_phone_id_clean h,
    sub_email_id_clean h, sub_passport_id_clean h, sub_snils_id_clean h]

/-! ### Fixed-length rules on delimited, over-long and letter-preceded digit runs -/

theorem get_digit_of_all {d : List Char} (hd : d.all Char.isDigit = true) {n : Nat}
    (h : n < d.length) : ∃ c, d[n]? = some c ∧ c.isDigit = true := by
  refine ⟨d[n], List.getElem?_eq_getElem h, ?_⟩
  exact List.all_eq_true.mp hd d[n] (List.getElem_mem h)

theorem matchFixed_some_delim (pfx : List Char) (n : Nat) {a b : Char} {d : List Char}
    (ha : isWordChar a = false) (hb : b.isDigit = false)
    (hd : d.all Char.isDigit = true) (hlen : d.length = n)
    (hpfx : List.isPrefixOf pfx d = true) :
    matchFixed pfx n (some a) (d ++ [b]) = some n := by
  apply matchFixed_some_intro
  · simp [boundaryBeforeDigit, ha]
  · simp only [List.length_append, List.length_singleton]; omega
  · exact isPrefixOf_append hpfx [b]
  · rw [show n = d.length from hlen.symm, List.take_left]; exact hd
  · have hg : (d ++ [b])[n]? = some b := by
      rw [show n = d.length from hlen.symm, List.getElem?_append_right (le_refl d.length)]
      simp
    simp [nextNotDigit, hg, hb]

theorem matchFixed_some_exact (pfx : List Char) (n : Nat) {d : List Char}
    (hd : d.all Char.isDigit = true) (hlen : d.length = n)
    (hpfx : List.isPrefixOf pfx d = true) : matchFixed pfx n none d = some n := by
  apply matchFixed_some_intro
  · rfl
  · omega
  · exact hpfx
  · rw [show n = d.length from hlen.symm, List.take_length]; exact hd
  · simp [nextNotDigit, List.getElem?_eq_none (show d.length ≤ n by omega)]

theorem matchFixed_delim_rule (pfx : List Char) (n : Nat) (repl : List Char) (hn : 0 < n)
    {a b : Char} {d : List Char} (ha : isWordChar a = false) (hb : b.isDigit = false)
    (hd : d.all Char.isDigit = true) (hlen : d.length = n)
    (hpfx : List.isPrefixOf pfx d = true) :
    reSub (matchFixed pfx n) repl (a :: (d ++ [b])) = a :: (repl ++ [b]) := by
  apply reSub_delim hn hlen
  · exact matchFixed_none_of_head hn (not_isDigit_of_not_word ha)
  · exact matchFixed_some_delim pfx n ha hb hd hlen hpfx
  · intro prev; exact matchFixed_none_of_head hn hb

theorem matchFixed_exact_rule (pfx : List Char) (n : Nat) (repl : List Char) (hn : 0 < n)
    {d : List Char} (hd : d.all Char.isDigit = true) (hlen : d.length = n)
    (hpfx : List.isPrefixOf pfx d = true) : reSub (matchFixed pfx n) repl d = repl :=
  reSub_exact hn hlen (matchFixed_some_exact pfx n hd hlen hpfx)

theorem matchFixed_none_digits (pfx : List Char) (n : Nat) {d : List Char}
    (hd : d.all Char.isDigit = true) (hne : d.length ≠ n) :
    matchFixed pfx n none d = none := by
  rcases Nat.lt_trichotomy d.length n with h | h | h
  · exact matchFixed_none_of_short h
  · exact absurd h hne
  · obtain ⟨c, hc, hcd⟩ := get_digit_of_all hd h
    exact matchFixed_none_of_lookahead hc hcd

theorem subFixed_digits_id (pfx : List Char) (n : Nat) (repl : List Char) {d : List Char}
    (hd : d.all Char.isDigit = true) (hne : d.length ≠ n) :
    reSub (matchFixed pfx n) repl d = d := by
  apply reSub_id_run
  · intro prev l hprev; exact matchFixed_none_of_boundary hprev
  · exact matchFixed_none_digits pfx n hd hne
  · exact hd

theorem subFixed_wordhead_id (pfx : List Char) (n : Nat) (repl : List Char) (hn : 0 < n)
    {c : Char} {d : List Char} (hc : isWordChar c = true) (hcd : c.isDigit = false)
    (hd : d.all Char.isDigit = true) : reSub (matchFixed pfx n) repl (c :: d) = c :: d := by
  apply reSub_id_wordhead
  · intro prev l hprev; exact matchFixed_none_of_boundary hprev
  · exact matchFixed_none_of_head hn hcd
  · exact hc
  · exact hd

theorem matchINN_none_of_boundary {prev : Option Char} {l : List Char}
    (h : boundaryBeforeDigit prev = false) : matchINN prev l = none := by
  have i10 : matchFixed [] 10 prev l = none := matchFixed_none_of_boundary h
  have i12 : matchFixed [] 12 prev l = none := matchFixed_none_of_boundary h
  simp [matchINN, i10, i12, Option.orElse]

theorem matchINN_none_of_head {prev : Option Char} {c : Char} {l : List Char}
    (hc : c.isDigit = false) : matchINN prev (c :: l) = none := by
  have i10 : matchFixed [] 10 prev (c :: l) = none := matchFixed_none_of_head (by omega) hc
  have i12 : matchFixed [] 12 prev (c :: l) = none := matchFixed_none_of_head (by omega) hc
  simp [matchINN, i10, i12, Option.orElse]

theorem matchINN_none_digits {d : List Char} (hd : d.all Char.isDigit = true)
    (h10 : d.length ≠ 10) (h12 : d.length ≠ 12) : matchINN none d = none := by
  have i10 := matchFixed_none_digits [] 10 hd h10
  have i12 := matchFixed_none_digits [] 12 hd h12
  simp [matchINN, i10, i12, Option.orElse]

theorem sub_inn_digits_id {d : List Char} (hd : d.all Char.isDigit = true)
    (h10 : d.length ≠ 10) (h12 : d.length ≠ 12) : sub_inn d = d := by
  apply reSub_id_run
  · intro prev l hprev; exact matchINN_none_of_boundary hprev
  · exact matchINN_none_digits hd h10 h12
  · exact hd

theorem sub_inn_wordhead_id {c : Char} {d : List Char} (hc : isWordChar c = true)
    (hcd : c.isDigit = false) (hd : d.all Char.isDigit = true) :
    sub_inn (c :: d) = c :: d := by
  apply reSub_id_wordhead
  · intro prev l hprev; exact matchINN_none_of_boundary hprev
  · exact matchINN_none_of_head hcd
  · exact hc
  · exact hd

theorem sub_inn_delim10 {a b : Char} {d : List Char} (ha : isWordChar a = false)
    (hb : b.isDigit = false) (hd : d.all Char.isDigit = true) (hlen : d.length = 10) :
    sub_inn (a :: (d ++ [b])) = a :: ("[ИНН]".data ++ [b]) := by
  apply reSub_delim (show 0 < 10 by omega) hlen
  · exact matchINN_none_of_head (not_isDigit_of_not_word ha)
  · have h1 := matchFixed_some_delim [] 10 ha hb hd hlen (by simp [List.isPrefixOf])
    simp [matchINN, h1, Option.orElse]
  · intro prev; exact matchINN_none_of_head hb

theorem sub_inn_delim12 {a b : Char} {d : List Char} (ha : isWordChar a = false)
    (hb : b.isDigit = false) (hd : d.all Char.isDigit = true) (hlen : d.length = 12) :
    sub_inn (a :: (d ++ [b])) = a :: ("[ИНН]".data ++ [b]) := by
  apply reSub_delim (show 0 < 12 by omega) hlen
  · exact matchINN_none_of_head (not_isDigit_of_not_word ha)
  · have hfail : matchFixed [] 10 (some a) (d ++ [b]) = none := by
      obtain ⟨c, hc, hcd⟩ := get_digit_of_all hd (show 10 < d.length by omega)
      have hg : (d ++ [b])[10]? = some c := by
        rw [List.getElem?_append_left (show 10 < d.length by omega)]; exact hc
      exact matchFixed_none_of_lookahead hg hcd
    have h2 := matchFixed_some_delim [] 12 ha hb hd hlen (by simp [List.isPrefixOf])
    simp [matchINN, hfail, h2, Option.orElse]
  · intro prev; exact matchINN_none_of_head hb

/-! ### Claim theorems for the structured stage -/

/-- C1 (counterexample): `redact_structured` is not idempotent for every
input: on a bare 19-digit run the phone rule leaves 9 digits adjacent to
its placeholder, and a second application replaces them through the 9-digit
TAX_REG_CODE rule. -/
theorem redact_structured_not_idempotent :
    anonymize_with_regex (anonymize_with_regex "1234567890123456789".data) ≠
      anonymize_with_regex "1234567890123456789".data := by decide

/-- C1 (amended): `redact_structured` is idempotent on every input whose
structured-redacted output contains no digit and no at-sign; in particular
placeholder tokens never re-match a numeric, email, or phone rule. -/
theorem redact_structured_idempotent_of_clean (t : List Char)
    (h : cleanChars (anonymize_with_regex t) = true) :
    anonymize_with_regex (anonymize_with_regex t) = anonymize_with_regex t :=
  anonymize_with_regex_id_clean h

/-- C1 (witness): the amended idempotence theorem at the input
`"1234567890"`, whose redacted output is the digit-free `[ИНН]`. -/
theorem redact_structured_idempotent_of_clean_witness :
    cleanChars (anonymize_with_regex "1234567890".data) = true ∧
      anonymize_with_regex (anonymize_with_regex "1234567890".data) =
        anonymize_with_regex "1234567890".data :=
  ⟨by decide, redact_structured_idempotent_of_clean "1234567890".data (by decide)⟩

/-- C7: on the exact string `"1234567890"` the output is the TAX_ID
placeholder `[ИНН]`, not `[КПП]` or any other category placeholder. -/
theorem rule_order_ten_digit_tax_id :
    anonymize_with_regex "1234567890".data = "[ИНН]".data := by decide

/-- C10: the phone rule carries no boundary anchor; on a standalone
19-digit run (length matching no fixed-length rule) the output is the
phone placeholder covering exactly the first 10 digits, with the remaining
9 digits left adjacent to it. -/
theorem phone_rule_matches_inside_digit_run :
    anonymize_with_regex "1234567890123456789".data = "[ТЕЛЕФОН]123456789".data := by
  decide

/-- C2 (counterexample): the digit run in `"a123456789"` is delimited by a
non-digit character before it and the string boundary after it, yet
`redact_structured` replaces nothing: the leading `\b` of every
fixed-length rule demands a non-word character, and the letter `a` is a
word character. -/
theorem fixed_rule_letter_blocks_match :
    'a'.isDigit = false ∧
      anonymize_with_regex ('a' :: "123456789".data) = 'a' :: "123456789".data := by
  constructor
  · decide
  · decide

/-- C2 (amended): every fixed-length numeric rule replaces a standalone
digit run exactly when the run is immediately preceded by a non-word
character (or the string start) and immediately followed by a non-digit
character (or the string end); a preceding word character (letter, digit
or underscore) blocks the rule even when it is a non-digit; and no rule
ever replaces a proper substring of a longer digit run. -/
theorem fixed_rules_boundary_semantics :
    (∀ a b : Char, ∀ d : List Char, isWordChar a = false → b.isDigit = false →
      d.all Char.isDigit = true →
      ((d.length = 10 → sub_inn (a :: (d ++ [b])) = a :: ("[ИНН]".data ++ [b])) ∧
       (d.length = 12 → sub_inn (a :: (d ++ [b])) = a :: ("[ИНН]".data ++ [b])) ∧
       (d.length = 13 → sub_ogrn (a :: (d ++ [b])) = a :: ("[ОГРН]".data ++ [b])) ∧
       (d.length = 15 → sub_ogrnip (a :: (d ++ [b])) = a :: ("[ОГРНИП]".data ++ [b])) ∧
       (d.length = 9 → sub_kpp (a :: (d ++ [b])) = a :: ("[КПП]".data ++ [b])) ∧
       (d.length = 9 → List.isPrefixOf ['0', '4'] d = true →
         sub_bik (a :: (d ++ [b])) = a :: ("[БИК]".data ++ [b])) ∧
       (d.length = 20 → sub_rs (a :: (d ++ [b])) = a :: ("[Р/С]".data ++ [b])) ∧
       (d.length = 20 → List.isPrefixOf ['3', '0', '1'] d = true →
         sub_ks (a :: (d ++ [b])) = a :: ("[К/С]".data ++ [b])))) ∧
    (∀ d : List Char, d.all Char.isDigit = true →
      ((10 < d.length → d.length ≠ 12 → sub_inn d = d) ∧
       (13 < d.length → sub_ogrn d = d) ∧
       (15 < d.length → sub_ogrnip d = d) ∧
       (9 < d.length → sub_kpp d = d) ∧
       (9 < d.length → sub_bik d = d) ∧
       (20 < d.length → sub_rs d = d) ∧
       (20 < d.length → sub_ks d = d))) ∧
    (∀ c : Char, ∀ d : List Char, isWordChar c = true → c.isDigit = false →
      d.all Char.isDigit = true →
      (sub_inn (c :: d) = c :: d ∧ sub_ogrn (c :: d) = c :: d ∧
       sub_ogrnip (c :: d) = c :: d ∧ sub_kpp (c :: d) = c :: d ∧
       sub_bik (c :: d) = c :: d ∧ sub_rs (c :: d) = c :: d ∧
       sub_ks (c :: d) = c :: d)) := by
  refine ⟨?_, ?_, ?_⟩
  · intro a b d ha hb hd
    refine ⟨fun h => sub_inn_delim10 ha hb hd h,
      fun h => sub_inn_delim12 ha hb hd h,
      fun h => matchFixed_delim_rule [] 13 _ (by omega) ha hb hd h (by simp [List.isPrefixOf]),
      fun h => matchFixed_delim_rule [] 15 _ (by omega) ha hb hd h (by simp [List.isPrefixOf]),
      fun h => matchFixed_delim_rule [] 9 _ (by omega) ha hb hd h (by simp [List.isPrefixOf]),
      fun h hp => matchFixed_delim_rule ['0', '4'] 9 _ (by omega) ha hb hd h hp,
      fun h => matchFixed_delim_rule [] 20 _ (by omega) ha hb hd h (by simp [List.isPrefixOf]),
      fun h hp => matchFixed_delim_rule ['3', '0', '1'] 20 _ (by omega) ha hb hd h hp⟩
  · intro d hd
    refine ⟨fun h1 h2 => sub_inn_digits_id hd (by omega) h2,
      fun h => subFixed_digits_id [] 13 _ hd (by omega),
      fun h => subFixed_digits_id [] 15 _ hd (by omega),
      fun h => subFixed_digits_id [] 9 _ hd (by omega),
      fun h => subFixed_digits_id ['0', '4'] 9 _ hd (by omega),
      fun h => subFixed_digits_id [] 20 _ hd (by omega),
      fun h => subFixed_digits_id ['3', '0', '1'] 20 _ hd (by omega)⟩
  · intro c d hc hcd hd
    exact ⟨sub_inn_wordhead_id hc hcd hd,
      subFixed_wordhead_id [] 13 _ (by omega) hc hcd hd,
      subFixed_wordhead_id [] 15 _ (by omega) hc hcd hd,
      subFixed_wordhead_id [] 9 _ (by omega) hc hcd hd,
      subFixed_wordhead_id ['0', '4'] 9 _ (by omega) hc hcd hd,
      subFixed_wordhead_id [] 20 _ (by omega) hc hcd hd,
      subFixed_wordhead_id ['3', '0', '1'] 20 _ (by omega) hc hcd hd⟩

/-- C2 (witness): the boundary-semantics theorem at the 9-digit run
`123456789` delimited by a space before and the letter `x` after. -/
theorem fixed_rules_boundary_semantics_witness :
    sub_kpp (' ' :: ("123456789".data ++ ['x'])) = ' ' :: ("[КПП]".data ++ ['x']) :=
  (fixed_rules_boundary_semantics.1 ' ' 'x' "123456789".data (by decide) (by decide)
    (by decide)).2.2.2.2.1 (by decide)

/-- C4: the generic same-length rule runs first, so the specific-prefix
rules never fire on straight-line text: a standalone 9-digit number
beginning with 04 becomes `[КПП]` (never `[БИК]`), and a standalone
20-digit number beginning with 301 becomes `[Р/С]` (never `[К/С]`). -/
theorem specific_prefix_rules_shadowed :
    (∀ d : List Char, d.all Char.isDigit = true → d.length = 7 →
      anonymize_with_regex ('0' :: '4' :: d) = "[КПП]".data) ∧
    (∀ d : List Char, d.all Char.isDigit = true → d.length = 17 →
      anonymize_with_regex ('3' :: '0' :: '1' :: d) = "[Р/С]".data) := by
  constructor
  · intro d hd hlen
    have hd9 : ('0' :: '4' :: d).all Char.isDigit = true := by
      simp only [List.all_cons, Bool.and_eq_true]
      exact ⟨by decide, by decide, hd⟩
    have hl9 : ('0' :: '4' :: d).length = 9 := by simp [hlen]
    unfold anonymize_with_regex
    rw [show sub_inn ('0' :: '4' :: d) = '0' :: '4' :: d from
        sub_inn_digits_id hd9 (by omega) (by omega),
      show sub_ogrn ('0' :: '4' :: d) = '0' :: '4' :: d from
        subFixed_digits_id [] 13 _ hd9 (by omega),
      show sub_ogrnip ('0' :: '4' :: d) = '0' :: '4' :: d from
        subFixed_digits_id [] 15 _ hd9 (by omega),
      show sub_kpp ('0' :: '4' :: d) = "[КПП]".data from
        matchFixed_exact_rule [] 9 _ (by omega) hd9 hl9 (by simp [List.isPrefixOf]),
      sub_bik_id_clean (by decide), sub_rs_id_clean (by decide),
      sub_ks_id_clean (by decide), sub_phone_id_clean (by decide),
      sub_email_id_clean (by decide), sub_passport_id_clean (by decide),
      sub_snils_id_clean (by decide)]
  · intro d hd hlen
    have hd20 : ('3' :: '0' :: '1' :: d).all Char.isDigit = true := by
      simp only [List.all_cons, Bool.and_eq_true]
      exact ⟨by decide, by decide, by decide, hd⟩
    have hl20 : ('3' :: '0' :: '1' :: d).length = 20 := by simp [hlen]
    unfold anonymize_with_regex
    rw [show sub_inn ('3' :: '0' :: '1' :: d) = '3' :: '0' :: '1' :: d from
        sub_inn_digits_id hd20 (by omega) (by omega),
      show sub_ogrn ('3' :: '0' :: '1' :: d) = '3' :: '0' :: '1' :: d from
        subFixed_digits_id [] 13 _ hd20 (by omega),
      show sub_ogrnip ('3' :: '0' :: '1' :: d) = '3' :: '0' :: '1' :: d from
        subFixed_digits_id [] 15 _ hd20 (by omega),
      show sub_kpp ('3' :: '0' :: '1' :: d) = '3' :: '0' :: '1' :: d from
        subFixed_digits_id [] 9 _ hd20 (by omega),
      show sub_bik ('3' :: '0' :: '1' :: d) = '3' :: '0' :: '1' :: d from
        subFixed_digits_id ['0', '4'] 9 _ hd20 (by omega),
      show sub_rs ('3' :: '0' :: '1' :: d) = "[Р/С]".data from
        matchFixed_exact_rule [] 20 _ (by omega) hd20 hl20 (by simp [List.isPrefixOf]),
      sub_ks_id_clean (by decide), sub_phone_id_clean (by decide),
      sub_email_id_clean (by decide), sub_passport_id_clean (by decide),
      sub_snils_id_clean (by decide)]

/-- C4 (witness): the shadowing theorem at the standalone numbers
`041234567` and `30112345678901234567`. -/
theorem specific_prefix_rules_shadowed_witness :
    anonymize_with_regex ('0' :: '4' :: "1234567".data) = "[КПП]".data ∧
      anonymize_with_regex ('3' :: '0' :: '1' :: "12345678901234567".data) = "[Р/С]".data :=
  ⟨specific_prefix_rules_shadowed.1 "1234567".data (by decide) (by decide),
   specific_prefix_rules_shadowed.2 "12345678901234567".data (by decide) (by decide)⟩

/-! ### Claim theorems for the entity stage and the orchestrator -/

/-- C3: if the recognizer capability raises, `redact_entities` does not
propagate the failure and returns its input text exactly unchanged, and
consequently `anonymize` returns the structured-redacted text with the
entity stage a no-op. -/
theorem ner_failure_returns_input (recognize : List Char → Except String (List NerSpan))
    (text : List Char) (e : String) :
    (recognize text = .error e → anonymize_with_ner recognize text = text) ∧
    (recognize (anonymize_with_regex text) = .error e →
      full_anonymize recognize text = anonymize_with_regex text) := by
  constructor
  · intro h; simp [anonymize_with_ner, h]
  · intro h; simp [full_anonymize, anonymize_with_ner, h]

/-- C3 (witness): a recognizer that always raises, at the text `"abc"`. -/
theorem ner_failure_returns_input_witness :
    anonymize_with_ner (fun _ => .error "boom") "abc".data = "abc".data ∧
      full_anonymize (fun _ => .error "boom") "abc".data =
        anonymize_with_regex "abc".data :=
  ⟨(ner_failure_returns_input (fun _ => .error "boom") "abc".data "boom").1 rfl,
   (ner_failure_returns_input (fun _ => .error "boom") "abc".data "boom").2 rfl⟩

/-- C6: `full_anonymize` equals the composition of the entity stage after
the structured stage: the structured stage runs first, the entity stage
second, and both stages always run. -/
theorem full_anonymize_is_composition
    (recognize : List Char → Except String (List NerSpan)) (text : List Char) :
    full_anonymize recognize text =
      anonymize_with_ner recognize (anonymize_with_regex text) :=
  rfl

/-- C8 (counterexample): the blank-input no-op does not hold for every
recognizer behavior: a recognizer that reports a span on the whitespace
text makes `anonymize` rewrite it. -/
theorem anonymize_blank_not_noop_for_all_recognizers :
    full_anonymize (fun _ => .ok [⟨0, 3, "PER"⟩]) "   ".data ≠ "   ".data := by
  decide

/-- C8 (amended): `anonymize` is a no-op on empty and whitespace-only
input for every recognizer that returns no spans or raises on that
input. -/
theorem anonymize_blank_noop (recognize : List Char → Except String (List NerSpan))
    (h1 : recognize [] = .ok [] ∨ ∃ e, recognize [] = .error e)
    (h2 : recognize "   ".data = .ok [] ∨ ∃ e, recognize "   ".data = .error e) :
    full_anonymize recognize [] = [] ∧
      full_anonymize recognize "   ".data = "   ".data := by
  have hreg1 : anonymize_with_regex ([] : List Char) = [] := rfl
  have hreg2 : anonymize_with_regex "   ".data = "   ".data := by decide
  constructor
  · show anonymize_with_ner recognize (anonymize_with_regex []) = []
    rw [hreg1]
    rcases h1 with h | ⟨e, h⟩
    · simp [anonymize_with_ner, h, applyNerSpans, sortSpansDesc, List.insertionSort]
    · simp [anonymize_with_ner, h]
  · show anonymize_with_ner recognize (anonymize_with_regex "   ".data) = "   ".data
    rw [hreg2]
    rcases h2 with h | ⟨e, h⟩
    · simp [anonymize_with_ner, h, applyNerSpans, sortSpansDesc, List.insertionSort]
    · simp [anonymize_with_ner, h]

/-- C8 (witness): the no-op theorem at a recognizer that returns no
spans. -/
theorem anonymize_blank_noop_witness :
    full_anonymize (fun _ => .ok []) [] = [] ∧
      full_anonymize (fun _ => .ok []) "   ".data = "   ".data :=
  anonymize_blank_noop (fun _ => .ok []) (Or.inl rfl) (Or.inl rfl)

theorem spliceLoopExc_ok {faultAt : Option Nat} :
    ∀ (spans : List NerSpan) (j : Nat) (acc res : List Char),
      spliceLoopExc faultAt j acc spans = .ok res → res = spans.foldl applySpan acc := by
  intro spans
  induction spans with
  | nil =>
    intro j acc res h
    simp only [spliceLoopExc, Except.ok.injEq] at h
    simpa using h.symm
  | cons s rest ih =>
    intro j acc res h
    by_cases hf : faultAt = some j
    · simp [spliceLoopExc, hf] at h
    · simp only [spliceLoopExc, if_neg hf] at h
      simpa [List.foldl_cons] using ih (j + 1) (applySpan acc s) res h

theorem spliceLoopExc_fires {k : Nat} :
    ∀ (spans : List NerSpan) (j : Nat) (acc : List Char), j ≤ k → k < j + spans.length →
      spliceLoopExc (some k) j acc spans = .error "NER" := by
  intro spans
  induction spans with
  | nil =>
    intro j acc h1 h2
    simp only [List.length_nil] at h2
    omega
  | cons s rest ih =>
    intro j acc h1 h2
    by_cases hf : j = k
    · simp [spliceLoopExc, hf]
    · have h2' : k < (j + 1) + rest.length := by
        simp only [List.length_cons] at h2
        omega
      simp only [spliceLoopExc]
      rw [if_neg (by simp; omega)]
      exact ih (j + 1) (applySpan acc s) (by omega) h2'

/-- C9: the entity stage is atomic.  With a fault injected at any loop
iteration (modeling an exception raised after some spans were already
spliced into the private list copy), `redact_entities` either completes
fully or returns the original input text exactly; in particular a fault
at any iteration strictly inside the span list yields the original text,
never a partially entity-redacted one. -/
theorem ner_exception_atomicity (recognize : List Char → Except String (List NerSpan))
    (faultAt : Option Nat) (text : List Char) :
    (anonymize_with_ner_exc recognize faultAt text = text ∨
      anonymize_with_ner_exc recognize faultAt text = anonymize_with_ner recognize text) ∧
    (∀ k spans, recognize text = .ok spans → faultAt = some k →
      k < (sortSpansDesc spans).length →
      anonymize_with_ner_exc recognize faultAt text = text) := by
  constructor
  · cases hrec : recognize text with
    | error e => left; simp [anonymize_with_ner_exc, hrec]
    | ok spans =>
      cases hloop : spliceLoopExc faultAt 0 text (sortSpansDesc spans) with
      | error e => left; simp [anonymize_with_ner_exc, hrec, hloop]
      | ok res =>
        right
        have hres := spliceLoopExc_ok (sortSpansDesc spans) 0 text res hloop
        simp [anonymize_with_ner_exc, anonymize_with_ner, applyNerSpans, hrec, hloop, hres]
  · intro k spans hrec hf hlt
    subst hf
    have hfire : spliceLoopExc (some k) 0 text (sortSpansDesc spans) = .error "NER" :=
      spliceLoopExc_fires (sortSpansDesc spans) 0 text (by omega) (by omega)
    simp [anonymize_with_ner_exc, hrec, hfire]

/-- C9 (witness): two spans on `"abcdef"`, fault injected after the first
(rightmost) span was spliced: the result is exactly the original text. -/
theorem ner_exception_atomicity_witness :
    anonymize_with_ner_exc (fun _ => .ok [⟨3, 5, "LOC"⟩, ⟨0, 2, "PER"⟩]) (some 1)
      "abcdef".data = "abcdef".data :=
  (ner_exception_atomicity (fun _ => .ok [⟨3, 5, "LOC"⟩, ⟨0, 2, "PER"⟩]) (some 1)
      "abcdef".data).2 1 [⟨3, 5, "LOC"⟩, ⟨0, 2, "PER"⟩] rfl rfl (by decide)

/-! ### C5: the descending splice leaves no offset drift -/

theorem applySpan_render_step {t : List Char} {s : NerSpan} {r tail : List Char}
    (hr : replacementFor s.type = some r) (hss : s.start ≤ s.stop)
    (hsl : s.stop ≤ t.length) :
    applySpan (t.take s.stop ++ tail) s = t.take s.start ++ r ++ tail := by
  have hlen1 : (t.take s.stop).length = s.stop := by
    rw [List.length_take]; omega
  have hstop_le : s.stop ≤ (t.take s.stop ++ tail).length := by
    rw [List.length_append, hlen1]; omega
  have hstart_le : s.start ≤ (t.take s.stop ++ tail).length := le_trans hss hstop_le
  unfold applySpan
  rw [hr]
  unfold pySpliceAssign
  simp only [Nat.min_eq_left hstart_le, Nat.min_eq_left hstop_le, Nat.max_eq_right hss]
  have htake : (t.take s.stop ++ tail).take s.start = t.take s.start := by
    rw [List.take_append_eq_append_take, hlen1,
      show s.start - s.stop = 0 by omega, List.take_take,
      show s.start ⊓ s.stop = s.start by omega]
    simp
  have hdrop : (t.take s.stop ++ tail).drop s.stop = tail := by
    rw [List.drop_append_eq_append_drop, hlen1, show s.stop - s.stop = 0 by omega]
    have : (t.take s.stop).drop s.stop = [] :=
      List.drop_eq_nil_of_le (le_of_eq hlen1)
    simp [this]
  rw [htake, hdrop]

theorem foldl_applySpan_renders (t : List Char) :
    ∀ (asc : List NerSpan) (pos : Nat), ChainOK t.length pos asc →
      (∀ s ∈ asc, (replacementFor s.type).isSome = true) →
      List.foldl applySpan t asc.reverse = t.take pos ++ renderSpans t pos asc := by
  intro asc
  induction asc with
  | nil =>
    intro pos _ _
    simp [renderSpans, List.take_append_drop]
  | cons s rest ih =>
    intro pos hchain htypes
    obtain ⟨hpos, hss, hsl, hrest⟩ := hchain
    obtain ⟨r, hr⟩ : ∃ r, replacementFor s.type = some r := by
      have hmem := htypes s (List.mem_cons_self s rest)
      cases hrep : replacementFor s.type with
      | none => rw [hrep] at hmem; simp at hmem
      | some r => exact ⟨r, rfl⟩
    rw [List.reverse_cons, List.foldl_append,
      ih s.stop hrest (fun x hx => htypes x (List.mem_cons_of_mem s hx))]
    simp only [List.foldl_cons, List.foldl_nil]
    rw [applySpan_render_step hr hss hsl]
    have hpre : t.take pos ++ (t.take s.start).drop pos = t.take s.start := by
      have h1 : (t.take s.start).take pos = t.take pos := by
        rw [List.take_take, show pos ⊓ s.start = pos by omega]
      rw [← h1, List.take_append_drop]
    rw [show renderSpans t pos (s :: rest) =
        (t.take s.start).drop pos ++ r ++ renderSpans t s.stop rest from by
      simp [renderSpans, hr]]
    conv_lhs => rw [← hpre]
    simp [List.append_assoc]

theorem chainOK_build {len : Nat} :
    ∀ (asc : List NerSpan) (pos : Nat),
      List.Pairwise (fun a b => a.start ≤ b.start) asc →
      List.Pairwise (fun s1 s2 => s1.stop ≤ s2.start ∨ s2.stop ≤ s1.start) asc →
      (∀ s ∈ asc, s.start < s.stop ∧ s.stop ≤ len) →
      (∀ s ∈ asc, pos ≤ s.start) →
      ChainOK len pos asc := by
  intro asc
  induction asc with
  | nil => intro pos _ _ _ _; trivial
  | cons s rest ih =>
    intro pos hsort hdisj hb hpos
    have hs := hb s (List.mem_cons_self s rest)
    refine ⟨hpos s (List.mem_cons_self s rest), le_of_lt hs.1, hs.2, ?_⟩
    apply ih s.stop (List.pairwise_cons.mp hsort).2 (List.pairwise_cons.mp hdisj).2
      (fun x hx => hb x (List.mem_cons_of_mem s hx))
    intro x hx
    rcases (List.pairwise_cons.mp hdisj).1 x hx with h | h
    · exact h
    · have h1 : s.start ≤ x.start := (List.pairwise_cons.mp hsort).1 x hx
      have h2 := (hb x (List.mem_cons_of_mem s hx)).1
      omega

/-- C5: on pairwise non-overlapping, in-bounds, nonempty PERSON /
ORGANIZATION / LOCATION spans, the entity-stage loop (sort by start
descending, splice right to left) produces exactly the spec-side rendering:
every span's original `[start, stop)` substring is replaced by exactly its
placeholder and all text outside the spans is preserved — no offset drift;
and the span list actually applied is a permutation of the given one. -/
theorem ner_splice_no_offset_drift (text : List Char) (spans : List NerSpan)
    (htypes : ∀ s ∈ spans, s.type = "PER" ∨ s.type = "ORG" ∨ s.type = "LOC")
    (hbounds : ∀ s ∈ spans, s.start < s.stop ∧ s.stop ≤ text.length)
    (hdisj : List.Pairwise (fun s1 s2 => s1.stop ≤ s2.start ∨ s2.stop ≤ s1.start) spans) :
    applyNerSpans text spans = renderSpans text 0 ((sortSpansDesc spans).reverse) ∧
      ((sortSpansDesc spans).reverse).Perm spans := by
  have hperm : ((sortSpansDesc spans).reverse).Perm spans :=
    (List.reverse_perm (sortSpansDesc spans)).trans (List.perm_insertionSort spanDescRel spans)
  refine ⟨?_, hperm⟩
  have hsorted : List.Pairwise spanDescRel (sortSpansDesc spans) :=
    List.sorted_insertionSort spanDescRel spans
  have hasc : List.Pairwise (fun a b => a.start ≤ b.start) ((sortSpansDesc spans).reverse) := by
    rw [List.pairwise_reverse]
    exact hsorted
  have hdisj' : List.Pairwise (fun s1 s2 => s1.stop ≤ s2.start ∨ s2.stop ≤ s1.start)
      ((sortSpansDesc spans).reverse) :=
    (List.Perm.pairwise_iff (fun h => h.symm) hperm).mpr hdisj
  have hb' : ∀ s ∈ (sortSpansDesc spans).reverse, s.start < s.stop ∧ s.stop ≤ text.length :=
    fun s hs => hbounds s (hperm.subset hs)
  have htypes' : ∀ s ∈ (sortSpansDesc spans).reverse, (replacementFor s.type).isSome = true := by
    intro s hs
    rcases htypes s (hperm.subset hs) with h | h | h <;> simp [replacementFor, h]
  have hchain : ChainOK text.length 0 ((sortSpansDesc spans).reverse) :=
    chainOK_build _ 0 hasc hdisj' hb' (fun _ _ => Nat.zero_le _)
  have hmain := foldl_applySpan_renders text ((sortSpansDesc spans).reverse) 0 hchain htypes'
  rw [List.reverse_reverse] at hmain
  simpa [applyNerSpans] using hmain

/-- C5 (witness): two disjoint spans supplied in unsorted order on the
text `"abcdef"`. -/
theorem ner_splice_no_offset_drift_witness :
    applyNerSpans "abcdef".data [⟨3, 5, "LOC"⟩, ⟨0, 2, "PER"⟩] =
      renderSpans "abcdef".data 0
        ((sortSpansDesc [⟨3, 5, "LOC"⟩, ⟨0, 2, "PER"⟩]).reverse) ∧
      ((sortSpansDesc [⟨3, 5, "LOC"⟩, ⟨0, 2, "PER"⟩]).reverse).Perm
        [⟨3, 5, "LOC"⟩, ⟨0, 2, "PER"⟩] :=
  ner_splice_no_offset_drift "abcdef".data [⟨3, 5, "LOC"⟩, ⟨0, 2, "PER"⟩]
    (by decide) (by decide) (by decide)
